import Mathlib

/-!
Verification of the pencil-drawing stylization pipeline
(`src/examples/pencil_drawing/pencil_drawing.cpp` of the lime repository).

The C++ code is shallowly embedded over exact real arithmetic:
images and scalar fields become total functions from integer pixel
coordinates to `ℝ` (the convention is `x` = column, `y` = row, so a
`cv::Mat` access `m.at<float>(yy, xx)` becomes `m xx yy`, and a
multi-channel access `m.at<float>(y, x*dim+c)` becomes `m x y c`);
`double`/`float` arithmetic becomes exact real arithmetic; the C cast
`(int)` becomes truncation toward zero (`trunc0`); loops become folds
over explicit index lists in source order.

External collaborators that the file calls but whose code is not part
of this translation unit (OpenCV's `cv::bilateralFilter`, `cv::resize`,
`cv::cvtColor`, and lime's `npr::edgeDoG`, `npr::calcVectorField`,
`npr::uniformNoise`, `lime::Random`) are modelled as parameters
(the `Externals` structure), except where a claim speaks about their
output, in which case a definition modelled from the spec is used and
marked as such in its doc comment.
-/

namespace Lime

noncomputable section

/-- An image: column `x`, row `y`, channel `c`, real sample value. -/
abbrev Img : Type := ℤ → ℤ → ℕ → ℝ

/-- A single-channel scalar field: column `x`, row `y`. -/
abbrev SField : Type := ℤ → ℤ → ℝ

/-- Source constant `tau = M_PI / 6.0`. -/
def tau : ℝ := Real.pi / 6

/-- Source constant `t_disc = 24` (angle discretization). -/
def t_disc : ℕ := 24

/-- Source constant `s_disc = 24` (arc-length discretization). -/
def s_disc : ℕ := 24

/-- Source constant `sigma_1 = 4.0` (along-flow Gaussian width). -/
def sigma_1 : ℝ := 4

/-- Source constant `sigma_2 = 2.0` (tone-similarity Gaussian width). -/
def sigma_2 : ℝ := 2

/-- Source constant `S = 7.0` (half arc length of the line march). -/
def S : ℝ := 7

/-- Source constant `n = 2` (jitter discretization). -/
def n : ℕ := 2

/-- Source constant `ksize = 11` (ETF neighborhood size). -/
def ksize : ℕ := 11

/-- Modelled from the spec: `gauss` comes from lime's `math_utils.h`,
which is not under `src/`; the spec (§4.3) calls it `Gaussian(v, σ)`.
It is modelled as the Gaussian kernel `exp(-v² / (2σ²))` (a positive
normalization constant would change nothing proved here). -/
def gauss (v sigma : ℝ) : ℝ := Real.exp (-(v ^ 2) / (2 * sigma ^ 2))

/-- The C cast `(int)` on a `double`: truncation toward zero. -/
def trunc0 (r : ℝ) : ℤ := if 0 ≤ r then ⌊r⌋ else ⌈r⌉

/-- The bounds check `xx >= 0 && yy >= 0 && xx < width && yy < height`
in `LIConv`'s sampling loop. -/
def inBounds (w h : ℕ) (xx yy : ℤ) : Prop :=
  0 ≤ xx ∧ xx < (w : ℤ) ∧ 0 ≤ yy ∧ yy < (h : ℤ)

instance (w h : ℕ) (xx yy : ℤ) : Decidable (inBounds w h xx yy) := by
  unfold inBounds; infer_instance

/-- The landing column `xx = (int)(x + scale * cos(theta))` with
`scale = S / s_disc * s`. -/
def sampleX (x : ℤ) (theta : ℝ) (s : ℤ) : ℤ :=
  trunc0 ((x : ℝ) + S / (s_disc : ℝ) * (s : ℝ) * Real.cos theta)

/-- The landing row `yy = (int)(y + scale * sin(theta))` with
`scale = S / s_disc * s`. -/
def sampleY (y : ℤ) (theta : ℝ) (s : ℤ) : ℤ :=
  trunc0 ((y : ℝ) + S / (s_disc : ℝ) * (s : ℝ) * Real.sin theta)

/-- The loop index list `-24, ..., 24` shared by the `t` and `s` loops
(`for(int t=-t_disc; t<=t_disc; t++)` and the same for `s`), in source
order. -/
def stRange : List ℤ := (List.range 49).map (fun i : ℕ => (i : ℤ) - 24)

/-- One iteration of the inner `s`-loop of `LIConv` for channel `c`:
if the sample lands in bounds it adds
`G2 * noise(sample) * (1 - bilateral(x,y,c))` to the first accumulator
(`s_sum[c]`) and `G2` to the second (`w_sum[c]`), else it leaves the
accumulators unchanged. -/
def sStep (w h : ℕ) (bil : Img) (noise : SField) (x y : ℤ) (c : ℕ)
    (theta : ℝ) (sw : ℝ × ℝ) (s : ℤ) : ℝ × ℝ :=
  if inBounds w h (sampleX x theta s) (sampleY y theta s) then
    (sw.1 + gauss (bil (sampleX x theta s) (sampleY y theta s) c - bil x y c) sigma_2 *
        noise (sampleX x theta s) (sampleY y theta s) * (1 - bil x y c),
     sw.2 + gauss (bil (sampleX x theta s) (sampleY y theta s) c - bil x y c) sigma_2)
  else sw

/-- The inner `s`-loop of `LIConv` (accumulators `s_sum[c]`, `w_sum[c]`,
reset to `0` before the loop by the `fill` calls). -/
def sPass (w h : ℕ) (bil : Img) (noise : SField) (x y : ℤ) (c : ℕ)
    (theta : ℝ) : ℝ × ℝ :=
  stRange.foldl (sStep w h bil noise x y c theta) (0, 0)

/-- The candidate angle `theta = tau / t_disc * t + etf.at<float>(y, x)`. -/
def angleAt (etf : SField) (x y : ℤ) (t : ℤ) : ℝ :=
  tau / (t_disc : ℝ) * (t : ℝ) + etf x y

/-- One iteration of the outer `t`-loop of `LIConv` for channel `c`:
runs the `s`-loop at the candidate angle, then adds
`G1 * s_sum[c]` and `G1 * w_sum[c]` to the running accumulators
(`sum[c]`, `weight[c]`), with `G1 = gauss(t_i - theta, sigma_1)`. -/
def tStep (w h : ℕ) (bil : Img) (etf noise : SField) (x y : ℤ) (c : ℕ)
    (t_i : ℝ) (acc : ℝ × ℝ) (t : ℤ) : ℝ × ℝ :=
  (acc.1 + gauss (t_i - angleAt etf x y t) sigma_1 *
      (sPass w h bil noise x y c (angleAt etf x y t)).1,
   acc.2 + gauss (t_i - angleAt etf x y t) sigma_1 *
      (sPass w h bil noise x y c (angleAt etf x y t)).2)

/-- The accumulators `(sum[c], weight[c])` of `LIConv` at pixel `(x,y)`
after the whole `t`-loop, given the jitter `t_i`. -/
def LIConvAccum (w h : ℕ) (bil : Img) (etf noise : SField) (x y : ℤ) (c : ℕ)
    (t_i : ℝ) : ℝ × ℝ :=
  stRange.foldl (tStep w h bil etf noise x y c t_i) (0, 0)

/-- The per-pixel random jitter
`t_i = tau / n * (rand.randInt(2*n+1) - n)`, as a function of the drawn
integer `k ∈ [0, 2n]`. -/
def jitter (k : ℕ) : ℝ := tau / (n : ℝ) * ((k : ℝ) - (n : ℝ))

/-- The output of `LIConv` at pixel `(x,y)`, channel `c`:
`lic.at<float>(y, x*dim+c) = 1.0 - sum[c] / (ratio * weight[c])`,
given the integer `k` drawn by `rand.randInt(2*n+1)` for this pixel. -/
def LIConvPixel (w h : ℕ) (bil : Img) (etf noise : SField) (ratio : ℝ)
    (k : ℕ) (x y : ℤ) (c : ℕ) : ℝ :=
  1 - (LIConvAccum w h bil etf noise x y c (jitter k)).1 /
      (ratio * (LIConvAccum w h bil etf noise x y c (jitter k)).2)

/-- The whole of `LIConv` as an image: the pixel scan draws one random
integer per pixel, in row-major order, so the pixel `(x,y)` uses draw
number `y * w + x` of the stream `draws`. -/
def LIConv (w h : ℕ) (bil : Img) (etf noise : SField) (ratio : ℝ)
    (draws : ℤ → ℕ) : Img :=
  fun x y c => LIConvPixel w h bil etf noise ratio (draws (y * (w : ℤ) + x)) x y c

/-! ### Reference (spec-side) definition of the convolver

The following definitions restate, with explicit finite sums, the
reference double-Gaussian line-integral formula of the spec (§4.3,
steps 2–6); claim C1 asserts the source convolver equals them. -/

/-- Spec side: the contribution of sample `s` to `s_sum[c]`
(`G2 · noise(sample) · (1 − bilateral(x,y,c))` for an in-bounds sample,
`0` for a skipped one). -/
def sContrib (w h : ℕ) (bil : Img) (noise : SField) (x y : ℤ) (c : ℕ)
    (theta : ℝ) (s : ℤ) : ℝ :=
  if inBounds w h (sampleX x theta s) (sampleY y theta s) then
    gauss (bil (sampleX x theta s) (sampleY y theta s) c - bil x y c) sigma_2 *
      noise (sampleX x theta s) (sampleY y theta s) * (1 - bil x y c)
  else 0

/-- Spec side: the contribution of sample `s` to `w_sum[c]`
(`G2` for an in-bounds sample, `0` for a skipped one). -/
def wContrib (w h : ℕ) (bil : Img) (x y : ℤ) (c : ℕ)
    (theta : ℝ) (s : ℤ) : ℝ :=
  if inBounds w h (sampleX x theta s) (sampleY y theta s) then
    gauss (bil (sampleX x theta s) (sampleY y theta s) c - bil x y c) sigma_2
  else 0

/-- Spec side: `s_sum[c]` as a sum over the `2·s_disc+1` signed sample
indices `s ∈ [-24, 24]`. -/
def refSsum (w h : ℕ) (bil : Img) (noise : SField) (x y : ℤ) (c : ℕ)
    (theta : ℝ) : ℝ :=
  ∑ s in Finset.Icc (-24 : ℤ) 24, sContrib w h bil noise x y c theta s

/-- Spec side: `w_sum[c]` as a sum over the sample indices. -/
def refWsum (w h : ℕ) (bil : Img) (x y : ℤ) (c : ℕ) (theta : ℝ) : ℝ :=
  ∑ s in Finset.Icc (-24 : ℤ) 24, wContrib w h bil x y c theta s

/-- Spec side: the reference double-Gaussian line-integral value at
pixel `(x,y)`, channel `c`: each of the `2·t_disc+1` angle candidates
`θ(t) = tau/t_disc · t + flow(x,y)` is weighted by
`G1 = gauss(t_i − θ(t), sigma_1)` into running `sum[c]` and
`weight[c]`, and the final value is `1 − sum[c] / (ratio · weight[c])`. -/
def LIConvRef (w h : ℕ) (bil : Img) (etf noise : SField) (ratio : ℝ)
    (t_i : ℝ) (x y : ℤ) (c : ℕ) : ℝ :=
  1 - (∑ t in Finset.Icc (-24 : ℤ) 24,
        gauss (t_i - angleAt etf x y t) sigma_1 *
          refSsum w h bil noise x y c (angleAt etf x y t)) /
      (ratio * ∑ t in Finset.Icc (-24 : ℤ) 24,
        gauss (t_i - angleAt etf x y t) sigma_1 *
          refWsum w h bil x y c (angleAt etf x y t))

/-! ### Helper lemmas: folds as sums -/

/-- A fold that adds `f` to the first component and `g` to the second is
the pair of list sums. -/
lemma foldl_pair_add (L : List ℤ) (f g : ℤ → ℝ) :
    ∀ p : ℝ × ℝ,
      L.foldl (fun sw s => (sw.1 + f s, sw.2 + g s)) p =
        (p.1 + (L.map f).sum, p.2 + (L.map g).sum) := by
  induction L with
  | nil => intro p; simp
  | cons a L ih =>
      intro p
      rw [List.foldl_cons, ih, List.map_cons, List.map_cons,
        List.sum_cons, List.sum_cons]
      refine Prod.ext ?_ ?_ <;> simp <;> ring

/-- Summing a function over `List.range` is the `Finset.range` sum. -/
lemma list_range_sum (k : ℕ) (f : ℕ → ℝ) :
    ((List.range k).map f).sum = ∑ i in Finset.range k, f i := by
  induction k with
  | zero => simp
  | succ k ih =>
      rw [List.range_succ, List.map_append, List.sum_append,
        Finset.sum_range_succ, ih]
      simp

/-- The image of `Finset.range 49` under `i ↦ i - 24` is
`Finset.Icc (-24) 24` in `ℤ`. -/
lemma map_range_eq_Icc :
    (Finset.range 49).map
        ⟨fun i : ℕ => (i : ℤ) - 24, fun a b hab => by
          simp only [] at hab; omega⟩ =
      Finset.Icc (-24 : ℤ) 24 := by
  ext t
  simp only [Finset.mem_map, Finset.mem_range, Finset.mem_Icc,
    Function.Embedding.coeFn_mk]
  constructor
  · rintro ⟨i, hi, rfl⟩; omega
  · intro ht; exact ⟨(t + 24).toNat, by omega, by omega⟩

/-- Summing over the loop index list `stRange` is summing over
`Finset.Icc (-24) 24`. -/
lemma stRange_sum (f : ℤ → ℝ) :
    (stRange.map f).sum = ∑ s in Finset.Icc (-24 : ℤ) 24, f s := by
  rw [← map_range_eq_Icc, Finset.sum_map]
  unfold stRange
  rw [List.map_map, list_range_sum 49 (f ∘ fun i : ℕ => (i : ℤ) - 24)]
  rfl

/-- The inner `s`-loop accumulates exactly the spec-side sample sums. -/
lemma sPass_eq_ref (w h : ℕ) (bil : Img) (noise : SField) (x y : ℤ)
    (c : ℕ) (theta : ℝ) :
    sPass w h bil noise x y c theta =
      (refSsum w h bil noise x y c theta, refWsum w h bil x y c theta) := by
  unfold sPass refSsum refWsum
  rw [List.foldl_ext (sStep w h bil noise x y c theta)
      (fun sw s => (sw.1 + sContrib w h bil noise x y c theta s,
                    sw.2 + wContrib w h bil x y c theta s)) (0, 0)
      (by
        intro p s _
        unfold sStep sContrib wContrib
        by_cases hb : inBounds w h (sampleX x theta s) (sampleY y theta s) <;>
          simp [hb])]
  rw [foldl_pair_add, stRange_sum, stRange_sum]
  simp

/-- The accumulators of the source convolver equal the spec-side sums:
`sum[c]` is the `G1`-weighted sum of the per-angle `s_sum[c]`, and
`weight[c]` the `G1`-weighted sum of the per-angle `w_sum[c]`. -/
lemma LIConvAccum_eq_ref (w h : ℕ) (bil : Img) (etf noise : SField)
    (x y : ℤ) (c : ℕ) (t_i : ℝ) :
    LIConvAccum w h bil etf noise x y c t_i =
      (∑ t in Finset.Icc (-24 : ℤ) 24,
          gauss (t_i - angleAt etf x y t) sigma_1 *
            refSsum w h bil noise x y c (angleAt etf x y t),
       ∑ t in Finset.Icc (-24 : ℤ) 24,
          gauss (t_i - angleAt etf x y t) sigma_1 *
            refWsum w h bil x y c (angleAt etf x y t)) := by
  unfold LIConvAccum
  rw [List.foldl_ext (tStep w h bil etf noise x y c t_i)
      (fun acc t => (acc.1 + gauss (t_i - angleAt etf x y t) sigma_1 *
                        refSsum w h bil noise x y c (angleAt etf x y t),
                     acc.2 + gauss (t_i - angleAt etf x y t) sigma_1 *
                        refWsum w h bil x y c (angleAt etf x y t)) ) (0, 0)
      (by
        intro p t _
        unfold tStep
        rw [sPass_eq_ref])]
  rw [foldl_pair_add, stRange_sum, stRange_sum]
  simp

/-- C1: per-pixel, per-channel, the convolver's output equals the
reference double-Gaussian line-integral definition: the `2·24+1` angle
candidates `θ = (π/6)/24·t + flow(x,y)` each march `2·24+1` samples at
signed distances `7.0/24·s`, skip out-of-bounds landings, accumulate
`G2·noise·(1 − bilateral(x,y,c))` into `s_sum[c]` and `G2` into
`w_sum[c]`, are weighted by `G1 = gauss(t_i − θ, 4.0)` into `sum[c]`
and `weight[c]`, and the final value is `1 − sum[c]/(ratio·weight[c])`. -/
theorem C1_LIConv_matches_reference (w h : ℕ) (bil : Img)
    (etf noise : SField) (ratio : ℝ) (k : ℕ) (x y : ℤ) (c : ℕ) :
    LIConvPixel w h bil etf noise ratio k x y c =
      LIConvRef w h bil etf noise ratio (jitter k) x y c := by
  unfold LIConvPixel LIConvRef
  rw [LIConvAccum_eq_ref]

/-! ### Positivity of the accumulated weight (claim C3) -/

/-- The Gaussian weight is strictly positive. -/
lemma gauss_pos (v sigma : ℝ) : 0 < gauss v sigma := Real.exp_pos _

/-- Truncation toward zero is the identity on integers. -/
lemma trunc0_intCast (m : ℤ) : trunc0 (m : ℝ) = m := by
  unfold trunc0; split <;> simp

/-- The `s = 0` sample lands exactly on the center column. -/
lemma sampleX_zero (x : ℤ) (theta : ℝ) : sampleX x theta 0 = x := by
  unfold sampleX
  have h : (x : ℝ) + S / (s_disc : ℝ) * ((0 : ℤ) : ℝ) * Real.cos theta = (x : ℝ) := by
    push_cast; ring
  rw [h, trunc0_intCast]

/-- The `s = 0` sample lands exactly on the center row. -/
lemma sampleY_zero (y : ℤ) (theta : ℝ) : sampleY y theta 0 = y := by
  unfold sampleY
  have h : (y : ℝ) + S / (s_disc : ℝ) * ((0 : ℤ) : ℝ) * Real.sin theta = (y : ℝ) := by
    push_cast; ring
  rw [h, trunc0_intCast]

/-- For a center pixel inside the image, every candidate angle's
`w_sum[c]` is strictly positive: the `s = 0` sample always lands on the
in-bounds center pixel and contributes a positive Gaussian weight. -/
lemma refWsum_pos (w h : ℕ) (bil : Img) (x y : ℤ) (c : ℕ) (theta : ℝ)
    (hx : 0 ≤ x ∧ x < (w : ℤ)) (hy : 0 ≤ y ∧ y < (h : ℤ)) :
    0 < refWsum w h bil x y c theta := by
  unfold refWsum
  apply Finset.sum_pos'
  · intro s _
    unfold wContrib
    split
    · exact le_of_lt (gauss_pos _ _)
    · exact le_refl 0
  · refine ⟨0, by simp, ?_⟩
    unfold wContrib
    rw [sampleX_zero, sampleY_zero]
    rw [if_pos ⟨hx.1, hx.2, hy.1, hy.2⟩]
    exact gauss_pos _ _

/-- C3: in exact real arithmetic, for a strictly positive `ratio` and
any pixel `(x,y)` inside the image, the accumulated divisor
`weight[c]` of the convolver is strictly positive (the `s = 0` sample
always lands on the in-bounds center pixel and the Gaussian weights
`G1`, `G2` are strictly positive), so the division
`1 − sum[c]/(ratio·weight[c])` in `LIConvPixel` is never degenerate. -/
theorem C3_weight_positive (w h : ℕ) (bil : Img) (etf noise : SField)
    (ratio : ℝ) (k : ℕ) (x y : ℤ) (c : ℕ)
    (hx : 0 ≤ x ∧ x < (w : ℤ)) (hy : 0 ≤ y ∧ y < (h : ℤ))
    (hr : 0 < ratio) :
    0 < (LIConvAccum w h bil etf noise x y c (jitter k)).2 ∧
      ratio * (LIConvAccum w h bil etf noise x y c (jitter k)).2 ≠ 0 := by
  have hw : 0 < (LIConvAccum w h bil etf noise x y c (jitter k)).2 := by
    rw [LIConvAccum_eq_ref]
    simp only []
    apply Finset.sum_pos
    · intro t _
      exact mul_pos (gauss_pos _ _) (refWsum_pos w h bil x y c _ hx hy)
    · exact ⟨0, by simp⟩
  exact ⟨hw, ne_of_gt (mul_pos hr hw)⟩

/-- Witness for C3 at a concrete in-bounds pixel of a concrete 1×1
image with `ratio = 1`. -/
theorem C3_weight_positive_witness :
    ((0 ≤ (0 : ℤ) ∧ (0 : ℤ) < ((1 : ℕ) : ℤ)) ∧ (0 : ℝ) < 1) ∧
      (0 < (LIConvAccum 1 1 (fun _ _ _ => 0) (fun _ _ => 0) (fun _ _ => 0)
              0 0 0 (jitter 0)).2 ∧
        (1 : ℝ) * (LIConvAccum 1 1 (fun _ _ _ => 0) (fun _ _ => 0)
              (fun _ _ => 0) 0 0 0 (jitter 0)).2 ≠ 0) :=
  ⟨⟨⟨le_refl 0, by norm_num⟩, by norm_num⟩,
    C3_weight_positive 1 1 (fun _ _ _ => 0) (fun _ _ => 0) (fun _ _ => 0)
      1 0 0 0 0 ⟨le_refl 0, by norm_num⟩ ⟨le_refl 0, by norm_num⟩
      (by norm_num)⟩

/-! ### Orientation quantizer (claims C4, C10) -/

/-- The binarized edge mask `uedge`: the source converts the edge map
to 8-bit with scale `255.0` (`edge.convertTo(uedge, CV_8UC1, 255.0)`,
which rounds), then writes `0` where the 8-bit value is `< 192` and `1`
elsewhere.  Saturation to `[0,255]` cannot change which side of `192`
a value lies on, so the mask value is `0` exactly when
`round (255 * edge x y) < 192`. -/
def uedgeOf (edge : SField) (x y : ℤ) : ℤ :=
  if round (255 * edge x y) < 192 then 0 else 1

/-- The set of in-grid pixels where the binarized mask `u` is zero
(the below-threshold, non-edge pixels). -/
def zerosOf (w h : ℕ) (u : ℤ → ℤ → ℤ) : Finset (ℤ × ℤ) :=
  (Finset.Ico (0 : ℤ) (w : ℤ) ×ˢ Finset.Ico (0 : ℤ) (h : ℤ)).filter
    (fun p => u p.1 p.2 = 0)

/-- Modelled from the spec: `cv::distanceTransform(uedge, distmap,
cv::DIST_L2, 3)` is an external OpenCV collaborator, not code of this
repository; the spec (§3) defines the DistanceField as the per-pixel
Euclidean distance to the nearest `EdgeMask = 0` pixel.  It is modelled
as exactly that where a zero pixel exists; when the mask has no zero
pixel the spec leaves the value undefined and it is modelled arbitrarily
as `0` (no theorem below relies on that branch). -/
def distTransform (w h : ℕ) (u : ℤ → ℤ → ℤ) (x y : ℤ) : ℝ :=
  if hz : (zerosOf w h u).Nonempty then
    Real.sqrt ((zerosOf w h u).inf' hz
      (fun p => ((x : ℝ) - (p.1 : ℝ)) ^ 2 + ((y : ℝ) - (p.2 : ℝ)) ^ 2))
  else 0

/-- The distance threshold `max(width, height) / 50.0`. -/
def qThreshold (w h : ℕ) : ℝ := ((max w h : ℕ) : ℝ) / 50

/-- The quantized replacement angle
`(float)(ceil(theta / q_t) * q_t + q_s)` with `q_t = π`, `q_s = -π/4`. -/
def snapAngle (theta : ℝ) : ℝ :=
  (⌈theta / Real.pi⌉ : ℝ) * Real.pi - Real.pi / 4

open Classical in
/-- The source `quantizeOrientation(vfield, edge)`: binarize the edge
map, take the distance map to the nearest zero pixel, and for every
grid pixel whose distance exceeds the threshold replace the flow angle
by the snapped angle; all other pixels keep their value. -/
def quantizeOrientation (w h : ℕ) (vfield edge : SField) : SField :=
  fun x y =>
    if inBounds w h x y ∧
        qThreshold w h < distTransform w h (uedgeOf edge) x y then
      snapAngle (vfield x y)
    else vfield x y

/-- The source function takes both `vfield` and `edge` as mutable
references; as a state transformer it returns the pair of fields after
the call.  The body writes only `vfield` (and the locals `uedge`,
`distmap`), so the second component is the unchanged `edge`. -/
def quantizeOrientationProc (w h : ℕ) (st : SField × SField) :
    SField × SField :=
  (quantizeOrientation w h st.1 st.2, st.2)

/-- C4: for every flow field and edge map, every in-grid pixel whose
Euclidean distance to the nearest below-threshold (non-edge) pixel of
the binarized edge mask exceeds `max(width, height)/50` has its angle
`θ` replaced by `ceil(θ/π)·π − π/4`, and every pixel whose distance is
at most that threshold keeps its original orientation value. -/
theorem C4_quantize_far_snap_near_keep (w h : ℕ) (vfield edge : SField)
    (x y : ℤ) (hin : inBounds w h x y)
    (_hz : (zerosOf w h (uedgeOf edge)).Nonempty) :
    (qThreshold w h < distTransform w h (uedgeOf edge) x y →
      quantizeOrientation w h vfield edge x y = snapAngle (vfield x y)) ∧
    (distTransform w h (uedgeOf edge) x y ≤ qThreshold w h →
      quantizeOrientation w h vfield edge x y = vfield x y) := by
  constructor
  · intro hfar
    unfold quantizeOrientation
    rw [if_pos ⟨hin, hfar⟩]
  · intro hnear
    unfold quantizeOrientation
    rw [if_neg]
    rintro ⟨-, hfar⟩
    exact absurd hnear (not_le.mpr hfar)

/-- Witness for C4 at a concrete 1×1 grid whose edge map is all zero
(so the mask has a zero pixel and the center pixel is in bounds). -/
theorem C4_quantize_witness :
    (inBounds 1 1 0 0 ∧ (zerosOf 1 1 (uedgeOf (fun _ _ => 0))).Nonempty) ∧
      ((qThreshold 1 1 <
          distTransform 1 1 (uedgeOf (fun _ _ => 0)) 0 0 →
        quantizeOrientation 1 1 (fun _ _ => 0) (fun _ _ => 0) 0 0 =
          snapAngle ((fun _ _ => (0 : ℝ)) (0 : ℤ) (0 : ℤ))) ∧
       (distTransform 1 1 (uedgeOf (fun _ _ => 0)) 0 0 ≤ qThreshold 1 1 →
        quantizeOrientation 1 1 (fun _ _ => 0) (fun _ _ => 0) 0 0 =
          (fun _ _ => (0 : ℝ)) (0 : ℤ) (0 : ℤ))) := by
  have hin : inBounds 1 1 0 0 := by
    unfold inBounds; norm_num
  have hz : (zerosOf 1 1 (uedgeOf (fun _ _ => 0))).Nonempty := by
    refine ⟨(0, 0), ?_⟩
    unfold zerosOf uedgeOf
    simp
  exact ⟨⟨hin, hz⟩,
    C4_quantize_far_snap_near_keep 1 1 (fun _ _ => 0) (fun _ _ => 0)
      0 0 hin hz⟩

/-- C10: the edge-strength argument is unchanged by the call: the
binarization and thresholding are performed on the internally converted
copy `uedge`, so only the flow-field component of the state is
modified. -/
theorem C10_edge_not_mutated (w h : ℕ) (vfield edge : SField) :
    (quantizeOrientationProc w h (vfield, edge)).2 = edge := rfl

/-! ### Noise composition and the normalization ratio (claims C5, C6) -/

/-- The dense-noise target count `nNoise = (int)(0.2 * (double)(width *
height))` of the empty-anchors branch of `pencilDrawing`. -/
def nNoiseEmpty (w h : ℕ) : ℤ := trunc0 (0.2 * ((w * h : ℕ) : ℝ))

/-- The empty-anchors ratio `ratio = 1.5 * nNoise / (width * height)`. -/
def ratioEmpty (w h : ℕ) : ℝ :=
  1.5 * ((nNoiseEmpty w h : ℤ) : ℝ) / ((w * h : ℕ) : ℝ)

/-- One iteration of the anchor-stamping loop: `cv::rectangle(noise,
cv::Rect(px, py, 1, 1), cv::Scalar(1.0), -1)` fills the single pixel
`(px, py) = ((int)points[i].x, (int)points[i].y)` with value `1`. -/
def stampStep (f : SField) (p : ℝ × ℝ) : SField :=
  fun x y => if x = trunc0 p.1 ∧ y = trunc0 p.2 then 1 else f x y

/-- The non-empty-anchors noise field: start from
`cv::Mat::zeros` and stamp a unit impulse at each anchor's truncated
integer coordinate. -/
def stampNoise (pts : List (ℝ × ℝ)) : SField :=
  pts.foldl stampStep (fun _ _ => 0)

/-- The non-empty-anchors ratio: `ratio` starts at `1.0` and the loop
body assigns `ratio = 1.2 * nNoise / (width * height)` once per anchor,
with `nNoise = (int)points.size()`. -/
def ratioAnchors (pts : List (ℝ × ℝ)) (w h : ℕ) : ℝ :=
  pts.foldl (fun _ _ => 1.2 * ((pts.length : ℕ) : ℝ) / ((w * h : ℕ) : ℝ)) 1

/-- The `ratio` computed by `pencilDrawing` (both branches of
`if(points.empty())`). -/
def ratioOf (pts : List (ℝ × ℝ)) (w h : ℕ) : ℝ :=
  if pts.isEmpty then ratioEmpty w h else ratioAnchors pts w h

/-- C5 counterexample: on a 3×3 image with no anchors the ratio is
`1.5 * ((int)(0.2 * 9)) / 9 = 1.5 * 1 / 9 = 1/6`, not the constant
`0.3` the claim states. -/
theorem C5_counterexample : ratioEmpty 3 3 ≠ 3 / 10 := by
  have h9 : ((3 * 3 : ℕ) : ℝ) = 9 := by norm_num
  have hfl : nNoiseEmpty 3 3 = 1 := by
    unfold nNoiseEmpty trunc0
    rw [h9, if_pos (by norm_num)]
    have : (0.2 : ℝ) * 9 = 9 / 5 := by norm_num
    rw [this, Int.floor_eq_iff]
    norm_num
  unfold ratioEmpty
  rw [hfl, h9]
  norm_num

/-- C5 amended: with no anchors the ratio is
`1.5 * ⌊0.2·W·H⌋ / (W·H)`; it equals the constant `0.3` exactly on the
images whose pixel count is a positive multiple of `5` (the integer
truncation makes it smaller otherwise). -/
theorem C5_ratio_empty_amended (w h : ℕ) (h5 : 5 ∣ w * h)
    (h0 : 0 < w * h) : ratioEmpty w h = 3 / 10 := by
  obtain ⟨m, hm⟩ := h5
  have hm0 : 0 < m := by omega
  have hcast : ((w * h : ℕ) : ℝ) = 5 * (m : ℝ) := by
    rw [hm]; push_cast; ring
  have hfl : nNoiseEmpty w h = (m : ℤ) := by
    unfold nNoiseEmpty
    rw [hcast]
    have : (0.2 : ℝ) * (5 * (m : ℝ)) = ((m : ℤ) : ℝ) := by
      push_cast; ring
    rw [this, trunc0_intCast]
  unfold ratioEmpty
  rw [hfl, hcast]
  have hmne : (m : ℝ) ≠ 0 := by positivity
  field_simp
  ring

/-- Witness for C5's amended statement on a 1×5 image. -/
theorem C5_ratio_empty_amended_witness :
    (5 ∣ 1 * 5 ∧ 0 < 1 * 5) ∧ ratioEmpty 1 5 = 3 / 10 :=
  ⟨⟨by norm_num, by norm_num⟩,
    C5_ratio_empty_amended 1 5 (by norm_num) (by norm_num)⟩

/-- The anchor's truncated integer pixel coordinate, as written by the
source (`(int)points[i].x`, `(int)points[i].y`). -/
def truncPair (p : ℝ × ℝ) : ℤ × ℤ := (trunc0 p.1, trunc0 p.2)

/-- The anchor's rounded-down integer pixel coordinate, as the claim
words it. -/
def floorPair (p : ℝ × ℝ) : ℤ × ℤ := (⌊p.1⌋, ⌊p.2⌋)

/-- Truncation toward zero agrees with rounding down on nonnegative
reals. -/
lemma trunc0_eq_floor {r : ℝ} (hr : 0 ≤ r) : trunc0 r = ⌊r⌋ := if_pos hr

/-- The value of the stamping fold: `1` at the truncated coordinate of
some anchor, the start field's value elsewhere. -/
lemma stampNoise_foldl (pts : List (ℝ × ℝ)) :
    ∀ (f0 : SField) (x y : ℤ),
      (pts.foldl stampStep f0) x y =
        if (x, y) ∈ pts.map truncPair then 1 else f0 x y := by
  induction pts with
  | nil => intro f0 x y; simp
  | cons p rest ih =>
      intro f0 x y
      rw [List.foldl_cons, ih]
      by_cases hm : (x, y) ∈ rest.map truncPair
      · rw [if_pos hm, if_pos (by simp [hm])]
      · rw [if_neg hm]
        unfold stampStep truncPair
        by_cases hp : x = trunc0 p.1 ∧ y = trunc0 p.2
        · rw [if_pos hp, if_pos]
          simp only [List.map_cons, List.mem_cons]
          exact Or.inl (by rw [hp.1, hp.2])
        · rw [if_neg hp, if_neg]
          simp only [List.map_cons, List.mem_cons]
          rintro (heq | hmem)
          · exact hp (by
              rw [Prod.mk.injEq] at heq
              exact ⟨heq.1, heq.2⟩)
          · exact hm hmem

/-- A fold whose body ignores its arguments and returns the constant
`K` yields `K` on every non-empty list. -/
lemma foldl_const_of_ne_nil {α β : Type} (K : β) (l : List α)
    (hl : l ≠ []) : ∀ init : β, l.foldl (fun _ _ => K) init = K := by
  induction l with
  | nil => exact absurd rfl hl
  | cons a l ih =>
      intro init
      rw [List.foldl_cons]
      rcases l with _ | ⟨b, l'⟩
      · simp
      · exact ih (by simp) K

/-- C6: for a non-empty anchor list whose rounded-down coordinates are
distinct and inside the `w × h` grid, the stamped noise field is zero
except for a unit impulse at each anchor's rounded-down coordinate,
it has exactly `k = pts.length` nonzero cells, and the computed ratio
is `1.2·k/(w·h)`. -/
theorem C6_anchor_noise (w h : ℕ) (pts : List (ℝ × ℝ))
    (hne : pts ≠ [])
    (hin : ∀ p ∈ pts, 0 ≤ ⌊p.1⌋ ∧ ⌊p.1⌋ < (w : ℤ) ∧ 0 ≤ ⌊p.2⌋ ∧ ⌊p.2⌋ < (h : ℤ))
    (hnd : (pts.map floorPair).Nodup) :
    (∀ x y : ℤ, stampNoise pts x y =
        if (x, y) ∈ pts.map floorPair then 1 else 0) ∧
    ((Finset.Ico (0 : ℤ) (w : ℤ) ×ˢ Finset.Ico (0 : ℤ) (h : ℤ)).filter
        (fun q => stampNoise pts q.1 q.2 ≠ 0)).card = pts.length ∧
    ratioOf pts w h = 1.2 * ((pts.length : ℕ) : ℝ) / ((w * h : ℕ) : ℝ) := by
  have hmaps : pts.map truncPair = pts.map floorPair := by
    apply List.map_congr_left
    intro p hp
    obtain ⟨h1, -, h2, -⟩ := hin p hp
    have hx0 : (0 : ℝ) ≤ p.1 :=
      le_trans (by exact_mod_cast h1) (Int.floor_le p.1)
    have hy0 : (0 : ℝ) ≤ p.2 :=
      le_trans (by exact_mod_cast h2) (Int.floor_le p.2)
    unfold truncPair floorPair
    rw [trunc0_eq_floor hx0, trunc0_eq_floor hy0]
  have hval : ∀ x y : ℤ, stampNoise pts x y =
      if (x, y) ∈ pts.map floorPair then 1 else 0 := by
    intro x y
    unfold stampNoise
    rw [stampNoise_foldl, hmaps]
  refine ⟨hval, ?_, ?_⟩
  · have hset : (Finset.Ico (0 : ℤ) (w : ℤ) ×ˢ Finset.Ico (0 : ℤ) (h : ℤ)).filter
        (fun q => stampNoise pts q.1 q.2 ≠ 0) = (pts.map floorPair).toFinset := by
      ext q
      rw [Finset.mem_filter, List.mem_toFinset]
      constructor
      · rintro ⟨-, hq⟩
        rw [hval q.1 q.2] at hq
        by_cases hmem : (q.1, q.2) ∈ pts.map floorPair
        · exact (Prod.mk.eta (p := q)) ▸ hmem
        · exact absurd (by rw [if_neg hmem] at hq; exact hq) (by simp)
      · intro hq
        obtain ⟨p, hp, hpq⟩ := List.mem_map.mp hq
        obtain ⟨h1, h2, h3, h4⟩ := hin p hp
        constructor
        · rw [Finset.mem_product, Finset.mem_Ico, Finset.mem_Ico, ← hpq]
          unfold floorPair
          exact ⟨⟨h1, h2⟩, ⟨h3, h4⟩⟩
        · rw [hval q.1 q.2, if_pos ((Prod.mk.eta (p := q)).symm ▸ hq)]
          norm_num
    rw [hset, List.toFinset_card_of_nodup hnd, List.length_map]
  · unfold ratioOf
    rw [if_neg (by simp [hne]), ratioAnchors]
    exact foldl_const_of_ne_nil _ pts hne 1

/-- Witness for C6: one anchor at `(0.5, 0.5)` in a 2×2 image. -/
theorem C6_anchor_noise_witness :
    ([((0.5 : ℝ), (0.5 : ℝ))] ≠ [] ∧
      (∀ p ∈ [((0.5 : ℝ), (0.5 : ℝ))],
        0 ≤ ⌊p.1⌋ ∧ ⌊p.1⌋ < ((2 : ℕ) : ℤ) ∧ 0 ≤ ⌊p.2⌋ ∧ ⌊p.2⌋ < ((2 : ℕ) : ℤ)) ∧
      (([((0.5 : ℝ), (0.5 : ℝ))].map floorPair).Nodup)) ∧
    ((∀ x y : ℤ, stampNoise [((0.5 : ℝ), (0.5 : ℝ))] x y =
        if (x, y) ∈ [((0.5 : ℝ), (0.5 : ℝ))].map floorPair then 1 else 0) ∧
      ((Finset.Ico (0 : ℤ) ((2 : ℕ) : ℤ) ×ˢ Finset.Ico (0 : ℤ) ((2 : ℕ) : ℤ)).filter
        (fun q => stampNoise [((0.5 : ℝ), (0.5 : ℝ))] q.1 q.2 ≠ 0)).card =
          [((0.5 : ℝ), (0.5 : ℝ))].length ∧
      ratioOf [((0.5 : ℝ), (0.5 : ℝ))] 2 2 =
        1.2 * (([((0.5 : ℝ), (0.5 : ℝ))].length : ℕ) : ℝ) / (((2 * 2 : ℕ) : ℕ) : ℝ)) := by
  have hfl : ⌊(0.5 : ℝ)⌋ = 0 := by
    rw [Int.floor_eq_iff]
    norm_num
  have hne : [((0.5 : ℝ), (0.5 : ℝ))] ≠ [] := by simp
  have hin : ∀ p ∈ [((0.5 : ℝ), (0.5 : ℝ))],
      0 ≤ ⌊p.1⌋ ∧ ⌊p.1⌋ < ((2 : ℕ) : ℤ) ∧ 0 ≤ ⌊p.2⌋ ∧ ⌊p.2⌋ < ((2 : ℕ) : ℤ) := by
    intro p hp
    rw [List.mem_singleton] at hp
    rw [hp]
    simp only [hfl]
    norm_num
  have hnd : ([((0.5 : ℝ), (0.5 : ℝ))].map floorPair).Nodup := by simp
  exact ⟨⟨hne, hin, hnd⟩, C6_anchor_noise 2 2 _ hne hin hnd⟩

/-! ### The single-scale pipeline and the LOD compositor (claims C2, C7) -/

/-- The external collaborators of the pipeline, passed as parameters:
OpenCV's color conversion, resize and bilateral filter, lime's
difference-of-Gaussians edge detector, edge-tangent-flow field,
uniform-noise synthesis and random-number generator.  They are out of
scope for the core (spec §1) and only their interfaces matter here. -/
structure Externals : Type where
  cvtGray : Img → SField
  edgeDoG : SField → SField
  calcVectorField : SField → ℕ → SField
  uniformNoise : SField → ℤ → SField
  bilateralFilter : Img → Img
  resize : Img → ℝ → Img
  resizeTo : Img → ℕ → ℕ → Img
  rand : ℤ → ℕ

/-- The noise field built by `pencilDrawing`: dense uniform noise with
requested count `(int)(0.3 * width * height)` when the anchor list is
empty, the stamped impulse field otherwise. -/
def noiseOf (ext : Externals) (w h : ℕ) (gray : SField)
    (pts : List (ℝ × ℝ)) : SField :=
  if pts.isEmpty then ext.uniformNoise gray (trunc0 (0.3 * ((w * h : ℕ) : ℝ)))
  else stampNoise pts

/-- The single-scale pipeline `pencilDrawing(input, out, points)` on a
`w × h` real-valued image: grayscale conversion, DoG edge map, ETF
flow field, orientation quantization, noise composition, and the line
integral convolution.  (The 8-bit-input branch of the source merely
converts the input to floating point first and is outside this
real-valued model.) -/
def pencilDrawing (ext : Externals) (w h : ℕ) (img : Img)
    (pts : List (ℝ × ℝ)) : Img :=
  LIConv w h (ext.bilateralFilter img)
    (quantizeOrientation w h
      (ext.calcVectorField (ext.cvtGray img) ksize)
      (ext.edgeDoG (ext.cvtGray img)))
    (noiseOf ext w h (ext.cvtGray img) pts)
    (ratioOf pts w h)
    ext.rand

/-- The size of `cv::resize(img, I, cv::Size(), scale, scale, ...)`:
each dimension is multiplied by the scale factor and rounded. -/
def resizeDims (w h : ℕ) (scale : ℝ) : ℕ × ℕ :=
  ((round (scale * (w : ℝ))).toNat, (round (scale * (h : ℝ))).toNat)

/-- One level of the LOD loop, as an image: resize the input by
`scale = 1 / 2^(l-1)` (cubic), scale the anchors by the same factor,
run the single-scale pipeline at the scaled size, and resize the
result back up to `w × h` (cubic). -/
def lodTerm (ext : Externals) (w h : ℕ) (img : Img)
    (pts : List (ℝ × ℝ)) (l : ℕ) : Img :=
  ext.resizeTo
    (pencilDrawing ext
      (resizeDims w h (1 / 2 ^ (l - 1))).1
      (resizeDims w h (1 / 2 ^ (l - 1))).2
      (ext.resize img (1 / 2 ^ (l - 1)))
      (pts.map (fun p => (p.1 * (1 / 2 ^ (l - 1) : ℝ), p.2 * (1 / 2 ^ (l - 1) : ℝ)))))
    w h

/-- The multi-scale compositor `pencilDrawingLOD(img, out, points,
level)`: starting from a zero image, the loop runs `l` from `level`
down to `1` and accumulates the per-level result, and the final image
is divided by `level`. -/
def pencilDrawingLOD (ext : Externals) (w h : ℕ) (img : Img)
    (pts : List (ℝ × ℝ)) (level : ℕ) : Img :=
  fun x y c =>
    ((List.range level).foldl
        (fun out i => fun x y c => out x y c + lodTerm ext w h img pts (level - i) x y c)
        (fun _ _ _ => 0)) x y c / ((level : ℕ) : ℝ)

/-- Evaluating an image-valued accumulation fold at one pixel gives the
scalar sum of the per-level terms at that pixel. -/
lemma foldl_img_add (G : ℕ → Img) (L : List ℕ) :
    ∀ (F : Img) (x y : ℤ) (c : ℕ),
      (L.foldl (fun out i => fun x y c => out x y c + G i x y c) F) x y c =
        F x y c + (L.map (fun i => G i x y c)).sum := by
  induction L with
  | nil => intro F x y c; simp
  | cons a L ih =>
      intro F x y c
      rw [List.foldl_cons, ih, List.map_cons, List.sum_cons]
      ring

/-- Reindexing: summing `f (n - i)` for `i` over `range n` (the order
`n, n-1, ..., 1` of the LOD loop) is summing `f l` for `l ∈ [1, n]`. -/
lemma sum_range_sub_eq_Icc (m : ℕ) (f : ℕ → ℝ) :
    ∑ i in Finset.range m, f (m - i) = ∑ l in Finset.Icc 1 m, f l := by
  apply Finset.sum_nbij' (i := fun a => m - a) (j := fun a => m - a)
  · intro a ha
    rw [Finset.mem_range] at ha
    rw [Finset.mem_Icc]
    omega
  · intro a ha
    rw [Finset.mem_Icc] at ha
    rw [Finset.mem_range]
    omega
  · intro a ha
    rw [Finset.mem_range] at ha
    omega
  · intro a ha
    rw [Finset.mem_Icc] at ha
    omega
  · intro a _
    rfl

/-- C2: for every image, anchor set and `levels ≥ 1`, the multi-scale
output is, pixelwise, the sum over `l = 1, ..., levels` of the
upsampled single-scale render at scale `1/2^(l-1)` (with anchors scaled
by the same factor), divided by `levels` — an unweighted average
across scales. -/
theorem C2_lod_is_scale_average (ext : Externals) (w h : ℕ) (img : Img)
    (pts : List (ℝ × ℝ)) (level : ℕ) (_hl : 1 ≤ level) (x y : ℤ) (c : ℕ) :
    pencilDrawingLOD ext w h img pts level x y c =
      (∑ l in Finset.Icc 1 level, lodTerm ext w h img pts l x y c) /
        ((level : ℕ) : ℝ) := by
  unfold pencilDrawingLOD
  rw [foldl_img_add (fun i => lodTerm ext w h img pts (level - i))]
  rw [list_range_sum level (fun i => lodTerm ext w h img pts (level - i) x y c)]
  rw [sum_range_sub_eq_Icc level (fun l => lodTerm ext w h img pts l x y c)]
  simp

/-- A trivial instantiation of the external collaborators, used only by
witnesses: all fields are constant, and both resizes are identities. -/
def trivialExt : Externals where
  cvtGray := fun _ => fun _ _ => 0
  edgeDoG := fun _ => fun _ _ => 0
  calcVectorField := fun _ _ => fun _ _ => 0
  uniformNoise := fun _ _ => fun _ _ => 0
  bilateralFilter := fun _ => fun _ _ _ => 0
  resize := fun i _ => i
  resizeTo := fun i _ _ => i
  rand := fun _ => 0

/-- The all-zero image, used by witnesses. -/
def zeroImg : Img := fun _ _ _ => 0

/-- Witness for C2 with one level on a 1×1 zero image. -/
theorem C2_lod_is_scale_average_witness :
    1 ≤ 1 ∧
      pencilDrawingLOD trivialExt 1 1 zeroImg [] 1 0 0 0 =
        (∑ l in Finset.Icc 1 1, lodTerm trivialExt 1 1 zeroImg [] l 0 0 0) /
          ((1 : ℕ) : ℝ) :=
  ⟨le_refl 1,
    C2_lod_is_scale_average trivialExt 1 1 zeroImg [] 1 (le_refl 1) 0 0 0⟩

/-- Rounding a native-scale resize size gives back the size. -/
lemma resizeDims_one (w h : ℕ) : resizeDims w h 1 = (w, h) := by
  unfold resizeDims
  rw [one_mul, one_mul, round_natCast, round_natCast]
  simp

/-- Scaling the anchors by `1.0` leaves them unchanged. -/
lemma anchors_scale_one (pts : List (ℝ × ℝ)) :
    pts.map (fun p => (p.1 * (1 : ℝ), p.2 * (1 : ℝ))) = pts := by
  have : (fun p : ℝ × ℝ => (p.1 * (1 : ℝ), p.2 * (1 : ℝ))) = fun p => p := by
    funext p
    rw [mul_one, mul_one]
  rw [this, List.map_id']

/-- C7: the multi-scale render with `levels = 1` equals the plain
single-scale render of the same image and anchors: the single level
runs at scale `1/2^0 = 1.0` and the final division is by `1`.  The
"within resizing tolerance" of the claim is rendered as the hypotheses
that the external cubic resize is the identity at native scale. -/
theorem C7_lod_one_level (ext : Externals) (w h : ℕ) (img : Img)
    (pts : List (ℝ × ℝ))
    (hrs : ext.resize img 1 = img)
    (hrt : ext.resizeTo (pencilDrawing ext w h img pts) w h =
      pencilDrawing ext w h img pts) :
    pencilDrawingLOD ext w h img pts 1 = pencilDrawing ext w h img pts := by
  have hterm : lodTerm ext w h img pts 1 = pencilDrawing ext w h img pts := by
    unfold lodTerm
    have hsc : (1 / 2 ^ (1 - 1) : ℝ) = 1 := by norm_num
    rw [hsc, resizeDims_one, hrs, anchors_scale_one]
    exact hrt
  funext x y c
  unfold pencilDrawingLOD
  rw [show List.range 1 = [0] from rfl]
  rw [List.foldl_cons, List.foldl_nil]
  rw [hterm]
  norm_num

/-- Witness for C7: the trivial externals have identity resizes. -/
theorem C7_lod_one_level_witness :
    (trivialExt.resize zeroImg 1 = zeroImg ∧
      trivialExt.resizeTo (pencilDrawing trivialExt 1 1 zeroImg []) 1 1 =
        pencilDrawing trivialExt 1 1 zeroImg []) ∧
      pencilDrawingLOD trivialExt 1 1 zeroImg [] 1 =
        pencilDrawing trivialExt 1 1 zeroImg [] :=
  ⟨⟨rfl, rfl⟩, C7_lod_one_level trivialExt 1 1 zeroImg [] rfl rfl⟩

/-! ### Random draw count of the convolver (claim C9) -/

/-- The number of `rand.randInt` calls performed by `LIConv`: the
single call sits in the body of the inner per-pixel loop
(`double t_i = tau / n * (rand.randInt(2*n+1) - n);` inside
`ompfor (int x...)`, which itself is inside `for (int y...)`), so the
counter is incremented once per pixel of each row scan. -/
def LIConvDraws (w h : ℕ) : ℕ :=
  (List.range h).foldl
    (fun acc _ => (List.range w).foldl (fun a _ => a + 1) acc) 0

/-- C9 counterexample: on a 2×1 image (width 2, height 1) the convolver
draws 2 random integers, not `height = 1`. -/
theorem C9_counterexample : LIConvDraws 2 1 ≠ 1 := by decide

/-- Counting one increment per element of a range. -/
lemma foldl_count_range (k : ℕ) :
    ∀ acc : ℕ, (List.range k).foldl (fun a _ => a + 1) acc = acc + k := by
  induction k with
  | zero => intro acc; simp
  | succ k ih =>
      intro acc
      rw [List.range_succ, List.foldl_append, ih]
      simp
      omega

/-- C9 amended: the convolver consults the random-number service
exactly once per output pixel — `width · height` uniform-integer draws
per render, not once per row. -/
theorem C9_one_draw_per_pixel (w h : ℕ) : LIConvDraws w h = w * h := by
  unfold LIConvDraws
  induction h with
  | zero => simp
  | succ h ih =>
      rw [List.range_succ, List.foldl_append, ih, List.foldl_cons,
        List.foldl_nil, foldl_count_range]
      ring

end

end Lime
